import Mathlib

/-!
# Verification of the minisam-react core: async operation queue and mask geometry

This file gives a shallow embedding of the two core modules of the
repository:

* `src/utils/async-queue.ts` — `createAsyncOperationQueue`, an async
  single-flight operation queue with a latest-wins cancellation policy
  (`enqueue`, `clear`, `processQueue`), modelled as a small-step state
  machine over JavaScript's single-threaded cooperative scheduling.

* `src/utils/mask-utils.ts` — the pure raster/mask functions
  `applyMaskToImage`, `trimCanvasToContent` and `getMaskBounds`,
  modelled over an explicit `ImageData`-like raster type.

Modelling conventions:

* `ImageData.data` (a `Uint8ClampedArray` in the source) is modelled as a
  total function `Nat → Nat` giving the byte at each index; the loops in the
  source only ever read or write in-range indices, and all theorems observe
  the data only at in-range indices.  Byte values are natural numbers; the
  code only distinguishes zero from nonzero alpha and copies bytes verbatim.
* JavaScript numbers are modelled as exact integers/rationals: the scale
  factors `mask.width / image.width` are exact rationals, so
  `Math.floor(x * scaleX)` is the natural-number division
  `x * mask.width / image.width`.
* `canvas.getContext("2d")` is assumed to succeed (in a browser it does);
  the `if (!ctx)` early-return branches are therefore not modelled.
* `drawImage(canvas, sx, sy, w, h, 0, 0, w, h)` onto a fresh transparent
  canvas copies the source sub-rectangle pixel for pixel.
-/

/-- A raster in the shape of the DOM `ImageData`: a width, a height and a
row-major RGBA byte array, modelled as a total function from byte index to
byte value.  The `data.length == width*height*4` invariant of the source is
represented by only observing indices below `width * height * 4`. -/
structure ImageDataM where
  width : Nat
  height : Nat
  data : Nat → Nat

namespace MaskUtils

/-- The list of `(y, x)` coordinate pairs visited by the nested
`for (let y ...) for (let x ...)` loops of `mask-utils.ts`, in visit order
(row-major: `y` outer, `x` inner). -/
def coords (h w : Nat) : List (Nat × Nat) :=
  (List.range h).flatMap (fun y => (List.range w).map (fun x => (y, x)))

/-- Point update of a byte array, modelling `arr[i] = v`. -/
def writeByte (d : Nat → Nat) (i v : Nat) : Nat → Nat :=
  fun j => if j = i then v else d j

/-- `const maskX = Math.floor(x * scaleX)` with `scaleX = mask.width / image.width`
(exact arithmetic: the floor of the rational `x * mask.width / image.width`). -/
def maskX (image mask : ImageDataM) (x : Nat) : Nat :=
  x * mask.width / image.width

/-- `const maskY = Math.floor(y * scaleY)` with `scaleY = mask.height / image.height`. -/
def maskY (image mask : ImageDataM) (y : Nat) : Nat :=
  y * mask.height / image.height

/-- `const maskIdx = (maskY * mask.width + maskX) * 4` from `applyMaskToImage`. -/
def maskIdx (image mask : ImageDataM) (x y : Nat) : Nat :=
  (maskY image mask y * mask.width + maskX image mask x) * 4

/-- One iteration of the pixel loop of `applyMaskToImage`: at destination
pixel `(x, y)`, if the mapped mask pixel's alpha byte is exactly `0`, set the
destination pixel's alpha byte to `0`; otherwise leave the data alone. -/
def applyMaskStep (image mask : ImageDataM) (d : Nat → Nat) (yx : Nat × Nat) :
    Nat → Nat :=
  let imageIdx := (yx.1 * image.width + yx.2) * 4
  if mask.data (maskIdx image mask yx.2 yx.1 + 3) = 0 then
    writeByte d (imageIdx + 3) 0
  else d

/-- The canvas produced by `applyMaskToImage` *before* the optional
trim-to-content step: the source image drawn to a same-size canvas, with the
mask applied by the nested pixel loop. -/
def applyMaskCore (image mask : ImageDataM) : ImageDataM :=
  { width := image.width
    height := image.height
    data := (coords image.height image.width).foldl (applyMaskStep image mask) image.data }

/-- The running bounds record of `trimCanvasToContent`
(`{ top: null, left: null, right: null, bottom: null }`). -/
structure BoundState where
  top : Option Nat
  left : Option Nat
  right : Option Nat
  bottom : Option Nat
deriving DecidableEq, Repr

/-- One iteration of the bounds-finding loop of `trimCanvasToContent` at
pixel index `p` (the source iterates byte index `i = 4*p` in steps of 4 and
computes `x = (i/4) % width`, `y = ~~(i/4 / width)`).  `top` is set only
once (first content pixel found); `left` takes minima, `right` and `bottom`
take maxima. -/
def trimStep (c : ImageDataM) (b : BoundState) (p : Nat) : BoundState :=
  if c.data (4 * p + 3) ≠ 0 then
    let x := p % c.width
    let y := p / c.width
    { top := match b.top with
        | none => some y
        | some t => some t
      left := match b.left with
        | none => some x
        | some l => if x < l then some x else some l
      right := match b.right with
        | none => some x
        | some r => if r < x then some x else some r
      bottom := match b.bottom with
        | none => some y
        | some bt => if bt < y then some y else some bt }
  else b

/-- The bounds-finding pass of `trimCanvasToContent` over all pixels. -/
def findBounds (c : ImageDataM) : BoundState :=
  (List.range (c.width * c.height)).foldl (trimStep c) ⟨none, none, none, none⟩

/-- `trimCanvasToContent(canvas, padding)`: find the content bounds; if no
content was found return the input canvas unchanged; otherwise clamp the
padded bounds to the canvas extent and return the copied sub-rectangle.
`Math.max(0, t - padding)` on integers is truncated subtraction on `Nat`. -/
def trimCanvasToContent (c : ImageDataM) (padding : Nat) : ImageDataM :=
  let b := findBounds c
  match b.top, b.left, b.right, b.bottom with
  | some t, some l, some r, some bt =>
    let top := t - padding
    let left := l - padding
    let right := min (c.width - 1) (r + padding)
    let bottom := min (c.height - 1) (bt + padding)
    let trimWidth := right - left + 1
    let trimHeight := bottom - top + 1
    { width := trimWidth
      height := trimHeight
      data := fun i =>
        let p := i / 4
        let ch := i % 4
        let x := p % trimWidth
        let y := p / trimWidth
        c.data (((top + y) * c.width + (left + x)) * 4 + ch) }
  | _, _, _, _ => c

/-- `applyMaskToImage(image, mask, { trimToContent, padding })`. -/
def applyMaskToImage (image mask : ImageDataM)
    (trimToContent : Bool := false) (padding : Nat := 0) : ImageDataM :=
  let canvas := applyMaskCore image mask
  if trimToContent then trimCanvasToContent canvas padding else canvas

/-- The running min/max state of `getMaskBounds`
(`minX = mask.width, minY = mask.height, maxX = -1, maxY = -1`), over
JavaScript numbers, i.e. integers. -/
structure MBState where
  minX : Int
  minY : Int
  maxX : Int
  maxY : Int
deriving DecidableEq, Repr

/-- One iteration of the pixel loop of `getMaskBounds` at coordinate
`(y, x)`. -/
def mbStep (m : ImageDataM) (s : MBState) (yx : Nat × Nat) : MBState :=
  let idx := (yx.1 * m.width + yx.2) * 4
  if m.data (idx + 3) > 0 then
    { minX := min s.minX yx.2
      minY := min s.minY yx.1
      maxX := max s.maxX yx.2
      maxY := max s.maxY yx.1 }
  else s

/-- The result record of `getMaskBounds`. -/
structure MaskBounds where
  left : Int
  top : Int
  right : Int
  bottom : Int
  width : Int
  height : Int
deriving DecidableEq, Repr

/-- The full pixel scan of `getMaskBounds`, starting from
`minX = mask.width, minY = mask.height, maxX = -1, maxY = -1`. -/
def mbScan (m : ImageDataM) : MBState :=
  (coords m.height m.width).foldl (mbStep m) ⟨m.width, m.height, -1, -1⟩

/-- `getMaskBounds(mask)`: scan all pixels accumulating min/max of the
coordinates of pixels with `data[idx + 3] > 0`; return `null` iff
`maxX === -1` after the scan. -/
def getMaskBounds (m : ImageDataM) : Option MaskBounds :=
  let s := mbScan m
  if s.maxX = -1 then none
  else some ⟨s.minX, s.minY, s.maxX, s.maxY,
             s.maxX - s.minX + 1, s.maxY - s.minY + 1⟩

end MaskUtils

namespace AsyncQueue

/-!
## The async operation queue (`src/utils/async-queue.ts`)

`createAsyncOperationQueue` is modelled as a state machine under
JavaScript's single-threaded cooperative scheduling.  Synchronous code runs
atomically; the only suspension point inside the queue is the
`await item.operation()` in `processQueue`.

Operations are identified by the order in which they are enqueued
(`nextId`).  An operation's thunk result is not fixed in advance: it is
chosen by the environment at the moment the in-flight thunk settles
(the `deliver` event), which models arbitrary async thunks.

Events (scheduler steps):

* `enq` — a caller invokes `enqueue(operation)`.  Synchronously: every
  pending queue item is rejected with
  `new Error('Operation cancelled by newer request')`, the new item is
  pushed, and `processQueue()` is called.  `processQueue` returns at once
  when `isProcessing` is set; otherwise it sets `isProcessing`, shifts the
  head item and starts its thunk, suspending at the `await`.
* `deliver k r` — the `k`-th currently executing thunk settles with result
  `r`; the suspended `processQueue` resumes: it settles that item's promise
  with `r`, then continues its `while` loop (shift-and-start the next
  pending item, or clear `isProcessing` when the queue is empty).
* `clear` — a caller invokes `clear()`: every pending item is rejected
  with `new Error('Queue cleared')` and dropped.

A JavaScript promise settles at most once; `settleOp` models that by
keeping the first recorded outcome.
-/

/-- A rejection reason: `jsError msg` models `new Error(msg)`; `thrown v`
models any other value a thunk may reject with.  Stored verbatim, never
wrapped. -/
inductive RejectReason where
  | jsError (msg : String)
  | thrown (v : Nat)
deriving DecidableEq, Repr

/-- The final state of a promise. -/
inductive Outcome where
  | fulfilled (v : Nat)
  | rejected (r : RejectReason)
deriving DecidableEq, Repr

/-- The result a thunk's own promise settles with. -/
inductive Res where
  | ok (v : Nat)
  | fail (e : RejectReason)
deriving DecidableEq, Repr

/-- The state of one `createAsyncOperationQueue()` instance plus the
promises it has handed out.  `queue` holds the ids of pending (not yet
started) items in order; `executing` holds the ids of started,
not-yet-settled thunks in start order (the code keeps it at length ≤ 1 —
proved below, not assumed); `outcomes` records each settled promise. -/
structure QState where
  queue : List Nat
  isProcessing : Bool
  executing : List Nat
  outcomes : Nat → Option Outcome
  nextId : Nat

/-- Settle promise `i` with outcome `out`; a no-op when `i` has already
settled (promises settle at most once). -/
def settleOp (o : Nat → Option Outcome) (i : Nat) (out : Outcome) :
    Nat → Option Outcome :=
  fun j => if j = i then (match o i with
    | none => some out
    | some x => some x)
  else o j

/-- Reject every id in `l` with reason `r` (the purge loops of `enqueue`
and `clear`). -/
def rejectAll (o : Nat → Option Outcome) (l : List Nat) (r : RejectReason) :
    Nat → Option Outcome :=
  l.foldl (fun o i => settleOp o i (.rejected r)) o

/-- The message of the cancellation error thrown by `enqueue`'s purge. -/
def cancelMsg : String := "Operation cancelled by newer request"

/-- The message of the error thrown by `clear`. -/
def clearMsg : String := "Queue cleared"

/-- Scheduler events. -/
inductive Ev where
  | enq
  | clear
  | deliver (k : Nat) (r : Res)

/-- One scheduler step. -/
def step (s : QState) (e : Ev) : QState :=
  match e with
  | .enq =>
    let o := rejectAll s.outcomes s.queue (.jsError cancelMsg)
    let q := [s.nextId]
    if s.isProcessing then
      { s with queue := q, outcomes := o, nextId := s.nextId + 1 }
    else
      { s with queue := [], isProcessing := true,
               executing := s.executing ++ [s.nextId],
               outcomes := o, nextId := s.nextId + 1 }
  | .clear =>
    { s with queue := [],
             outcomes := rejectAll s.outcomes s.queue (.jsError clearMsg) }
  | .deliver k r =>
    match s.executing.get? k with
    | none => s
    | some i =>
      let ex := s.executing.eraseIdx k
      let o := settleOp s.outcomes i
        (match r with
         | .ok v => .fulfilled v
         | .fail e => .rejected e)
      match s.queue with
      | j :: rest =>
        { s with queue := rest, executing := ex ++ [j], outcomes := o }
      | [] =>
        { s with isProcessing := false, executing := ex, outcomes := o }

/-- The state of a freshly created queue. -/
def init : QState :=
  { queue := [], isProcessing := false, executing := [],
    outcomes := fun _ => none, nextId := 0 }

/-- Run a list of scheduler events from the initial state. -/
def run (evs : List Ev) : QState :=
  evs.foldl step init

/-! ### Basic lemmas about promise settling -/

/-- A settled promise is never re-settled. -/
theorem settleOp_settled {o : Nat → Option Outcome} {j : Nat} {x : Outcome}
    (h : o j = some x) (i : Nat) (out : Outcome) : settleOp o i out j = some x := by
  unfold settleOp
  by_cases hji : j = i
  · subst hji; rw [h]; simp
  · simp [hji, h]

/-- `settleOp` leaves every other promise alone. -/
theorem settleOp_other {o : Nat → Option Outcome} {i j : Nat} (h : j ≠ i)
    (out : Outcome) : settleOp o i out j = o j := by
  simp [settleOp, h]

/-- `settleOp` settles a pending promise. -/
theorem settleOp_pending {o : Nat → Option Outcome} {i : Nat}
    (h : o i = none) (out : Outcome) : settleOp o i out i = some out := by
  simp [settleOp, h]

/-- `rejectAll` preserves already-settled promises. -/
theorem rejectAll_settled {o : Nat → Option Outcome} {j : Nat} {x : Outcome}
    (h : o j = some x) (l : List Nat) (r : RejectReason) :
    rejectAll o l r j = some x := by
  induction l generalizing o with
  | nil => simpa [rejectAll] using h
  | cons a t ih =>
      simp only [rejectAll, List.foldl_cons] at *
      exact ih (settleOp_settled h a _)

/-- `rejectAll` does not touch promises outside the purged list. -/
theorem rejectAll_not_mem {o : Nat → Option Outcome} {j : Nat} {l : List Nat}
    (h : j ∉ l) (r : RejectReason) : rejectAll o l r j = o j := by
  induction l generalizing o with
  | nil => rfl
  | cons a t ih =>
      simp only [List.mem_cons, not_or] at h
      simp only [rejectAll, List.foldl_cons] at *
      rw [ih h.2, settleOp_other h.1]

/-- `rejectAll` rejects every pending promise in the purged list. -/
theorem rejectAll_mem {o : Nat → Option Outcome} {j : Nat} {l : List Nat}
    (hm : j ∈ l) (hp : o j = none) (r : RejectReason) :
    rejectAll o l r j = some (.rejected r) := by
  induction l generalizing o with
  | nil => cases hm
  | cons a t ih =>
      simp only [rejectAll, List.foldl_cons] at *
      by_cases hja : j = a
      · subst hja
        exact rejectAll_settled (settleOp_pending hp _) t r
      · exact ih ((List.mem_cons.mp hm).resolve_left hja)
          (by rw [settleOp_other hja]; exact hp)

/-! ### The single-flight / single-pending invariant -/

/-- The inductive invariant of the queue state machine: when the processing
loop is not active nothing is pending or executing, when it is active
exactly one thunk is executing, and the pending queue never holds more than
one item. -/
def Inv (s : QState) : Prop :=
  (s.isProcessing = false → s.executing = [] ∧ s.queue = []) ∧
  (s.isProcessing = true → s.executing.length = 1) ∧
  s.queue.length ≤ 1

theorem inv_init : Inv init := by
  refine ⟨fun _ => ⟨rfl, rfl⟩, fun h => by simp [init] at h, by simp [init]⟩

theorem inv_step (s : QState) (e : Ev) (h : Inv s) : Inv (step s e) := by
  obtain ⟨h1, h2, h3⟩ := h
  unfold Inv
  cases e with
  | enq =>
      by_cases hp : s.isProcessing
      · simp only [step, hp, if_true]
        exact ⟨fun hf => by simp [hp] at hf, fun _ => h2 hp, by simp⟩
      · have hq : s.isProcessing = false := by simpa using hp
        simp only [step, hq, Bool.false_eq_true, if_false]
        exact ⟨fun hf => by simp at hf, fun _ => by simp [(h1 hq).1], by simp⟩
  | clear =>
      simp only [step]
      refine ⟨fun hf => ⟨(h1 hf).1, by simp⟩, h2, by simp⟩
  | deliver k r =>
      cases hg : s.executing.get? k with
      | none => simp only [step, hg]; exact ⟨h1, h2, h3⟩
      | some i =>
          have hp : s.isProcessing = true := by
            cases hq : s.isProcessing
            · rw [(h1 hq).1] at hg; simp at hg
            · rfl
          obtain ⟨a, ha⟩ := List.length_eq_one.mp (h2 hp)
          have hk : k = 0 := by
            by_contra hk0
            rw [ha, List.get?_eq_getElem?, List.getElem?_cons,
                if_neg hk0] at hg
            simp at hg
          subst hk
          have herase : s.executing.eraseIdx 0 = [] := by rw [ha]; rfl
          cases hqs : s.queue with
          | nil =>
              simp only [step, hg, hqs, herase]
              refine ⟨fun _ => ⟨by simp, by simp⟩, fun hf => by simp at hf, by simp⟩
          | cons j rest =>
              have hrest : rest = [] := by
                rw [hqs] at h3; simpa using h3
              simp only [step, hg, hqs, herase, hrest]
              refine ⟨fun hf => ?_, fun _ => by simp, by simp⟩
              rw [hp] at hf; cases hf

theorem inv_foldl (evs : List Ev) (s : QState) (h : Inv s) :
    Inv (evs.foldl step s) := by
  induction evs generalizing s with
  | nil => exact h
  | cons e t ih => exact ih _ (inv_step s e h)

theorem inv_run (evs : List Ev) : Inv (run evs) :=
  inv_foldl evs init inv_init

/-! ### A back-to-back burst of `enqueue` calls -/

/-- After `n ≥ 1` back-to-back `enqueue` calls on a fresh queue (no await in
between, so no `deliver` event occurs), operation `0` is in flight,
operation `n-1` (if distinct) is the sole pending item, the intermediate
operations `1 … n-2` have been rejected with the cancellation error, and
operations `0` and `n-1` are still unsettled. -/
theorem run_replicate_enq (n : Nat) (hn : 1 ≤ n) :
    (run (List.replicate n .enq)).queue = (if n = 1 then [] else [n - 1]) ∧
    (run (List.replicate n .enq)).isProcessing = true ∧
    (run (List.replicate n .enq)).executing = [0] ∧
    (run (List.replicate n .enq)).nextId = n ∧
    ∀ i, (run (List.replicate n .enq)).outcomes i =
      if 1 ≤ i ∧ i + 1 < n then some (.rejected (.jsError cancelMsg)) else none := by
  induction n with
  | zero => omega
  | succ m ih =>
      by_cases hm : m = 0
      · subst hm
        refine ⟨rfl, rfl, rfl, rfl, fun i => ?_⟩
        have : ¬(1 ≤ i ∧ i + 1 < 1) := by omega
        rw [if_neg this]
        rfl
      · have hm1 : 1 ≤ m := Nat.one_le_iff_ne_zero.mpr hm
        obtain ⟨ihq, ihp, ihe, ihn, iho⟩ := ih hm1
        have hrun : run (List.replicate (m + 1) .enq) =
            step (run (List.replicate m .enq)) .enq := by
          rw [List.replicate_succ']
          unfold run
          rw [List.foldl_append]
          rfl
        set s := run (List.replicate m .enq) with hs
        have hstep : step s .enq =
            { s with queue := [s.nextId],
                     outcomes := rejectAll s.outcomes s.queue (.jsError cancelMsg),
                     nextId := s.nextId + 1 } := by
          simp [step, ihp]
        rw [hrun, hstep]
        refine ⟨?_, ihp, ihe, by simp [ihn], fun i => ?_⟩
        · show [s.nextId] = _
          rw [ihn, if_neg (show ¬(m + 1 = 1) by omega)]
          simp
        show rejectAll s.outcomes s.queue (.jsError cancelMsg) i = _
        by_cases hm2 : m = 1
        · subst hm2
          have hq0 : s.queue = [] := by rw [ihq]; simp
          rw [hq0]
          show s.outcomes i = _
          rw [iho i]
          have h1 : ¬(1 ≤ i ∧ i + 1 < 1) := by omega
          have h2 : ¬(1 ≤ i ∧ i + 1 < 1 + 1) := by omega
          rw [if_neg h1, if_neg h2]
        · have hq : s.queue = [m - 1] := by rw [ihq, if_neg hm2]
          rw [hq]
          by_cases hi : i = m - 1
          · subst hi
            have hpend : s.outcomes (m - 1) = none := by
              rw [iho]
              exact if_neg (by omega)
            rw [rejectAll_mem (List.mem_singleton.mpr rfl) hpend]
            have : 1 ≤ m - 1 ∧ m - 1 + 1 < m + 1 := by omega
            rw [if_pos this]
          · rw [rejectAll_not_mem (by simpa using hi), iho i]
            have : (1 ≤ i ∧ i + 1 < m) ↔ (1 ≤ i ∧ i + 1 < m + 1) := by omega
            by_cases hc : 1 ≤ i ∧ i + 1 < m
            · rw [if_pos hc, if_pos (this.mp hc)]
            · rw [if_neg hc, if_neg (fun h => hc (this.mpr h))]

/-- A `deliver` step settles exactly the delivered operation's promise, with
the thunk's own result passed through verbatim, and touches no other
promise. -/
theorem deliver_settles (s : QState) (k i : Nat) (r : Res)
    (hget : s.executing.get? k = some i) (hpend : s.outcomes i = none) :
    (step s (.deliver k r)).outcomes i =
      some (match r with | .ok v => .fulfilled v | .fail e => .rejected e) ∧
    ∀ j, j ≠ i → (step s (.deliver k r)).outcomes j = s.outcomes j := by
  have hout : (step s (.deliver k r)).outcomes =
      settleOp s.outcomes i
        (match r with | .ok v => .fulfilled v | .fail e => .rejected e) := by
    simp only [step, hget]
    cases s.queue <;> rfl
  rw [hout]
  exact ⟨settleOp_pending hpend _, fun j hj => settleOp_other hj _⟩

/-! ### Claim theorems for the operation queue -/

/-- **C2.** At every observable instant — i.e. in every state reachable by
any interleaving of `enqueue`, `clear` and thunk-settlement scheduler
events — at most one thunk passed to `enqueue` is actively executing: the
queue never starts a second thunk while a previously started one has not
settled. -/
theorem single_flight (evs : List Ev) : (run evs).executing.length ≤ 1 := by
  obtain ⟨h1, h2, _⟩ := inv_run evs
  cases hp : (run evs).isProcessing
  · simp [(h1 hp).1]
  · simp [h2 hp]

/-- **C8.** The pending queue never holds more than one entry: after any
sequence of `enqueue`, `clear` and operation-completion steps,
`queueLength ≤ 1` in every reachable state, because each `enqueue` purges
all pending entries before appending its own single entry. -/
theorem queue_length_le_one (evs : List Ev) : (run evs).queue.length ≤ 1 :=
  (inv_run evs).2.2

/-- **C1 (counterexample).** The claim "for every back-to-back `enqueue`
burst only the last operation's thunk ever executes to completion and every
earlier operation's promise is rejected as cancelled" is false on the code:
in a burst of three `enqueue` calls on a fresh queue, the *first* operation
is started synchronously by the first call (it is in flight, not pending,
when the later calls purge the queue), runs to completion, and its promise
*fulfills* with its own result — it is never rejected. -/
theorem burst_first_op_fulfilled_counterexample :
    (step (run [.enq, .enq, .enq]) (.deliver 0 (.ok 42))).outcomes 0 =
      some (.fulfilled 42) ∧
    (step (run [.enq, .enq, .enq]) (.deliver 0 (.ok 42))).outcomes 0 ≠
      some (.rejected (.jsError cancelMsg)) := by
  decide

/-- **C1 (amended).** For every sequence of `n ≥ 2` `enqueue` calls made
back-to-back on a fresh queue without awaiting intermediate results: the
first operation's thunk is started synchronously by the first call and runs
to completion (its promise fulfills with its own result), every
*intermediate* operation's promise is rejected with
`'Operation cancelled by newer request'` before the last operation's thunk
starts executing (the last operation is still pending, unstarted, after the
burst), and the last operation's thunk starts only once the first settles. -/
theorem latest_wins_burst (n : Nat) (hn : 2 ≤ n) :
    (run (List.replicate n .enq)).executing = [0] ∧
    (run (List.replicate n .enq)).queue = [n - 1] ∧
    (run (List.replicate n .enq)).outcomes 0 = none ∧
    (run (List.replicate n .enq)).outcomes (n - 1) = none ∧
    (∀ i, 1 ≤ i → i + 1 < n →
      (run (List.replicate n .enq)).outcomes i =
        some (.rejected (.jsError cancelMsg))) ∧
    ∀ v, (step (run (List.replicate n .enq)) (.deliver 0 (.ok v))).outcomes 0 =
           some (.fulfilled v) ∧
         (step (run (List.replicate n .enq)) (.deliver 0 (.ok v))).executing =
           [n - 1] ∧
         (step (run (List.replicate n .enq)) (.deliver 0 (.ok v))).queue = [] := by
  obtain ⟨ihq, ihp, ihe, ihn, iho⟩ := run_replicate_enq n (by omega)
  set s := run (List.replicate n .enq) with hs
  have hq : s.queue = [n - 1] := by rw [ihq, if_neg (by omega)]
  have ho0 : s.outcomes 0 = none := by rw [iho 0, if_neg (by omega)]
  have hol : s.outcomes (n - 1) = none := by rw [iho (n - 1), if_neg (by omega)]
  refine ⟨ihe, hq, ho0, hol, fun i h1 h2 => by rw [iho i, if_pos ⟨h1, h2⟩],
          fun v => ?_⟩
  have hget : s.executing.get? 0 = some 0 := by rw [ihe]; rfl
  have hstep : step s (.deliver 0 (.ok v)) =
      { s with queue := [], executing := [n - 1],
               outcomes := settleOp s.outcomes 0 (.fulfilled v) } := by
    simp only [step, hget, hq]
    rw [ihe]
    rfl
  rw [hstep]
  exact ⟨settleOp_pending ho0 _, rfl, rfl⟩

/-- Witness for **C1 (amended)**: a concrete three-call burst in which the
middle operation is cancelled and the first fulfills with its own result. -/
theorem latest_wins_burst_witness :
    (2 ≤ 3) ∧
    (run (List.replicate 3 .enq)).outcomes 1 =
      some (.rejected (.jsError cancelMsg)) ∧
    (step (run (List.replicate 3 .enq)) (.deliver 0 (.ok 9))).outcomes 0 =
      some (.fulfilled 9) :=
  ⟨by decide,
   (latest_wins_burst 3 (by decide)).2.2.2.2.1 1 (by decide) (by decide),
   ((latest_wins_burst 3 (by decide)).2.2.2.2.2 9).1⟩

/-- **C6.** If an enqueued operation's thunk rejects during execution, the
promise returned by `enqueue` for that operation rejects with exactly the
same error value (stored verbatim, not wrapped), and no other pending or
future operation's promise is affected by the failure. -/
theorem thunk_failure_propagation (s : QState) (k i : Nat) (e : RejectReason)
    (hget : s.executing.get? k = some i) (hpend : s.outcomes i = none) :
    (step s (.deliver k (.fail e))).outcomes i = some (.rejected e) ∧
    ∀ j, j ≠ i → (step s (.deliver k (.fail e))).outcomes j = s.outcomes j :=
  deliver_settles s k i (.fail e) hget hpend

/-- Witness for **C6**: a single enqueued operation whose thunk rejects with
the raw value `7`; its promise rejects with that exact value, and an
unrelated promise is untouched. -/
theorem thunk_failure_propagation_witness :
    (step (run [.enq]) (.deliver 0 (.fail (.thrown 7)))).outcomes 0 =
      some (.rejected (.thrown 7)) ∧
    (step (run [.enq]) (.deliver 0 (.fail (.thrown 7)))).outcomes 3 =
      (run [.enq]).outcomes 3 :=
  ⟨(thunk_failure_propagation (run [.enq]) 0 0 (.thrown 7)
      (by decide) (by decide)).1,
   (thunk_failure_propagation (run [.enq]) 0 0 (.thrown 7)
      (by decide) (by decide)).2 3 (by decide)⟩

/-- **C7.** `clear()` rejects every currently pending (not yet started)
operation's promise with the `'Queue cleared'` error and removes them all,
so the queue length is `0` immediately after `clear()` returns; it never
aborts or otherwise affects the operation already in flight, whose promise
still settles with that operation's own result. -/
theorem clear_rejects_pending (s : QState) :
    (step s .clear).queue = [] ∧
    (step s .clear).executing = s.executing ∧
    (step s .clear).isProcessing = s.isProcessing ∧
    (∀ i ∈ s.queue, s.outcomes i = none →
      (step s .clear).outcomes i = some (.rejected (.jsError clearMsg))) ∧
    (∀ j, j ∉ s.queue → (step s .clear).outcomes j = s.outcomes j) ∧
    (∀ k i v, s.executing.get? k = some i → i ∉ s.queue →
      s.outcomes i = none →
      (step (step s .clear) (.deliver k (.ok v))).outcomes i =
        some (.fulfilled v)) := by
  refine ⟨rfl, rfl, rfl,
          fun i hm hp => rejectAll_mem hm hp _,
          fun j hj => rejectAll_not_mem hj _,
          fun k i v hget hiq hpend => ?_⟩
  have hget' : (step s .clear).executing.get? k = some i := hget
  have hpend' : (step s .clear).outcomes i = none := by
    show rejectAll s.outcomes s.queue (.jsError clearMsg) i = none
    rw [rejectAll_not_mem hiq, hpend]
  exact (deliver_settles (step s .clear) k i (.ok v) hget' hpend').1

/-- Witness for **C7**: with one operation in flight and one pending,
`clear()` empties the queue, rejects the pending promise with
`'Queue cleared'`, and the in-flight operation still fulfills with its own
result. -/
theorem clear_rejects_pending_witness :
    (step (run [.enq, .enq]) .clear).queue = [] ∧
    (step (run [.enq, .enq]) .clear).outcomes 1 =
      some (.rejected (.jsError clearMsg)) ∧
    (step (step (run [.enq, .enq]) .clear) (.deliver 0 (.ok 5))).outcomes 0 =
      some (.fulfilled 5) :=
  ⟨(clear_rejects_pending (run [.enq, .enq])).1,
   (clear_rejects_pending (run [.enq, .enq])).2.2.2.1 1 (by decide) (by decide),
   (clear_rejects_pending (run [.enq, .enq])).2.2.2.2.2 0 0 5
     (by decide) (by decide) (by decide)⟩

end AsyncQueue

namespace MaskUtils

/-! ### C10: the mask index computed by `applyMaskToImage` is in bounds -/

/-- The mapped mask column is a valid column. -/
theorem maskX_lt (image mask : ImageDataM) (hmw : 1 ≤ mask.width)
    (x : Nat) (hx : x < image.width) : maskX image mask x < mask.width := by
  have hiw : 0 < image.width := Nat.lt_of_le_of_lt (Nat.zero_le x) hx
  apply (Nat.div_lt_iff_lt_mul hiw).mpr
  calc x * mask.width < image.width * mask.width :=
        Nat.mul_lt_mul_of_lt_of_le hx (le_refl _) hmw
    _ = mask.width * image.width := Nat.mul_comm _ _

/-- The mapped mask row is a valid row. -/
theorem maskY_lt (image mask : ImageDataM) (hmh : 1 ≤ mask.height)
    (y : Nat) (hy : y < image.height) : maskY image mask y < mask.height := by
  have hih : 0 < image.height := Nat.lt_of_le_of_lt (Nat.zero_le y) hy
  apply (Nat.div_lt_iff_lt_mul hih).mpr
  calc y * mask.height < image.height * mask.height :=
        Nat.mul_lt_mul_of_lt_of_le hy (le_refl _) hmh
    _ = mask.height * image.height := Nat.mul_comm _ _

/-- **C10.** For every image with `width ≥ 1` and `height ≥ 1` and every
mask with `width ≥ 1` and `height ≥ 1` (whose `data` has length
`mask.width * mask.height * 4`, the `ImageData` invariant), every mask index
computed by `applyMaskToImage`'s pixel loop satisfies
`maskIdx + 3 < mask.width * mask.height * 4`: the loop never reads the
mask's data out of bounds. -/
theorem maskIdx_in_bounds (image mask : ImageDataM)
    (hmw : 1 ≤ mask.width) (hmh : 1 ≤ mask.height)
    (x y : Nat) (hx : x < image.width) (hy : y < image.height) :
    maskIdx image mask x y + 3 < mask.width * mask.height * 4 := by
  have hX : maskX image mask x < mask.width := maskX_lt image mask hmw x hx
  have hY : maskY image mask y < mask.height := maskY_lt image mask hmh y hy
  have hlin : maskY image mask y * mask.width + maskX image mask x + 1 ≤
      mask.height * mask.width := by
    calc maskY image mask y * mask.width + maskX image mask x + 1
        ≤ maskY image mask y * mask.width + mask.width := by omega
      _ = (maskY image mask y + 1) * mask.width := by ring
      _ ≤ mask.height * mask.width := Nat.mul_le_mul_right _ hY
  unfold maskIdx
  have hcomm : mask.width * mask.height = mask.height * mask.width :=
    Nat.mul_comm _ _
  rw [hcomm]
  omega

/-- Witness for **C10**: a 5×3 image against a 2×2 mask, at the bottom-right
destination pixel. -/
theorem maskIdx_in_bounds_witness :
    let image : ImageDataM := ⟨5, 3, fun _ => 0⟩
    let mask : ImageDataM := ⟨2, 2, fun _ => 0⟩
    maskIdx image mask 4 2 + 3 < mask.width * mask.height * 4 :=
  maskIdx_in_bounds ⟨5, 3, fun _ => 0⟩ ⟨2, 2, fun _ => 0⟩
    (by decide) (by decide) 4 2 (by decide) (by decide)

/-! ### C9: trimming a canvas with no content is a no-op -/

/-- The bounds-finding loop of `trimCanvasToContent` leaves the bounds
record untouched over pixels with zero alpha. -/
theorem trim_foldl_nocontent (c : ImageDataM) (l : List Nat) (b : BoundState)
    (h : ∀ p ∈ l, c.data (4 * p + 3) = 0) : l.foldl (trimStep c) b = b := by
  induction l generalizing b with
  | nil => rfl
  | cons a tl ih =>
      rw [List.foldl_cons]
      have ha : c.data (4 * a + 3) = 0 := h a (List.mem_cons_self a tl)
      have hstep : trimStep c b a = b := by
        unfold trimStep
        rw [if_neg (by simpa using ha)]
      rw [hstep]
      exact ih b (fun p hp => h p (List.mem_cons_of_mem a hp))

/-- **C9.** `trimCanvasToContent` applied to a raster in which no pixel has
nonzero alpha returns the input raster itself, unchanged, for every padding
value: the no-content case is a no-op, not an error. -/
theorem trim_no_content (c : ImageDataM)
    (h : ∀ p, p < c.width * c.height → c.data (4 * p + 3) = 0)
    (padding : Nat) : trimCanvasToContent c padding = c := by
  have hfb : findBounds c = ⟨none, none, none, none⟩ :=
    trim_foldl_nocontent c _ _ (fun p hp => h p (List.mem_range.mp hp))
  unfold trimCanvasToContent
  rw [hfb]

/-- Witness for **C9**: a concrete fully transparent 3×3 canvas, padding 5. -/
theorem trim_no_content_witness :
    trimCanvasToContent ⟨3, 3, fun i => if i % 4 = 3 then 0 else 200⟩ 5 =
      ⟨3, 3, fun i => if i % 4 = 3 then 0 else 200⟩ :=
  trim_no_content ⟨3, 3, fun i => if i % 4 = 3 then 0 else 200⟩ (by decide) 5

/-! ### C4: the per-pixel binary cutout of `applyMaskToImage` -/

/-- Membership in the nested-loop coordinate list. -/
theorem mem_coords {h w y x : Nat} : (y, x) ∈ coords h w ↔ y < h ∧ x < w := by
  simp only [coords, List.mem_flatMap, List.mem_map, List.mem_range,
             Prod.mk.injEq]
  constructor
  · rintro ⟨y', hy', x', hx', hyx, hxx⟩
    exact ⟨hyx ▸ hy', hxx ▸ hx'⟩
  · rintro ⟨hy, hx⟩
    exact ⟨y, hy, x, hx, rfl, rfl⟩

/-- Every coordinate visited by the nested loops is in range. -/
theorem coords_range {h w : Nat} {p : Nat × Nat} (hp : p ∈ coords h w) :
    p.1 < h ∧ p.2 < w := by
  obtain ⟨y, x⟩ := p
  exact mem_coords.mp hp

/-- Row-major byte indices of in-range pixels are injective (for channels
below 4). -/
theorem pixel_index_injective {w x x' y y' c c' : Nat}
    (hx : x < w) (hx' : x' < w) (hc : c < 4) (hc' : c' < 4)
    (h : (y * w + x) * 4 + c = (y' * w + x') * 4 + c') :
    y = y' ∧ x = x' ∧ c = c' := by
  have hw : 0 < w := Nat.lt_of_le_of_lt (Nat.zero_le x) hx
  have hpix : y * w + x = y' * w + x' ∧ c = c' := by
    set A := y * w + x with hA
    set B := y' * w + x' with hB
    omega
  obtain ⟨hpe, hce⟩ := hpix
  have hxe : x = x' := by
    have h1 : (x + w * y) % w = (x' + w * y') % w := by
      rw [Nat.add_comm x, Nat.add_comm x', Nat.mul_comm w y, Nat.mul_comm w y']
      exact congrArg (· % w) hpe
    rwa [Nat.add_mul_mod_self_left, Nat.add_mul_mod_self_left,
         Nat.mod_eq_of_lt hx, Nat.mod_eq_of_lt hx'] at h1
  have hye : y = y' := by
    have h1 : (x + y * w) / w = (x' + y' * w) / w := by
      rw [Nat.add_comm x, Nat.add_comm x']
      exact congrArg (· / w) hpe
    rwa [Nat.add_mul_div_right _ _ hw, Nat.add_mul_div_right _ _ hw,
         Nat.div_eq_of_lt hx, Nat.div_eq_of_lt hx', Nat.zero_add,
         Nat.zero_add] at h1
  exact ⟨hye, hxe, hce⟩

/-- The pixel loop of `applyMaskToImage` leaves a byte index untouched when
no visited pixel's alpha index equals it. -/
theorem applyMask_foldl_preserve (image mask : ImageDataM)
    (l : List (Nat × Nat)) (d : Nat → Nat) (t : Nat)
    (hnw : ∀ p ∈ l, (p.1 * image.width + p.2) * 4 + 3 ≠ t) :
    (l.foldl (applyMaskStep image mask) d) t = d t := by
  induction l generalizing d with
  | nil => rfl
  | cons a tl ih =>
      rw [List.foldl_cons,
          ih _ (fun p hp => hnw p (List.mem_cons_of_mem a hp))]
      by_cases hm : mask.data (maskIdx image mask a.2 a.1 + 3) = 0
      · have hne : t ≠ (a.1 * image.width + a.2) * 4 + 3 :=
          fun h => hnw a (List.mem_cons_self a tl) h.symm
        simp [applyMaskStep, hm, writeByte, hne]
      · simp [applyMaskStep, hm]

/-- The pixel loop of `applyMaskToImage` at the alpha index of an in-range
pixel `(x, y)`: the byte becomes `0` exactly when `(y, x)` is visited and its
mapped mask pixel's alpha is zero, and is otherwise left as it was. -/
theorem applyMask_foldl_alpha (image mask : ImageDataM) (x y : Nat)
    (hx : x < image.width) (l : List (Nat × Nat))
    (hl : ∀ p ∈ l, p.2 < image.width) (d : Nat → Nat) :
    (l.foldl (applyMaskStep image mask) d) ((y * image.width + x) * 4 + 3) =
      if (y, x) ∈ l ∧ mask.data (maskIdx image mask x y + 3) = 0 then 0
      else d ((y * image.width + x) * 4 + 3) := by
  induction l generalizing d with
  | nil => simp
  | cons a tl ih =>
      rw [List.foldl_cons,
          ih (fun p hp => hl p (List.mem_cons_of_mem a hp))]
      by_cases ha : a = (y, x)
      · subst ha
        by_cases hm : mask.data (maskIdx image mask x y + 3) = 0
        · have hstep : applyMaskStep image mask d (y, x)
              ((y * image.width + x) * 4 + 3) = 0 := by
            simp [applyMaskStep, hm, writeByte]
          by_cases ht : (y, x) ∈ tl
          · rw [if_pos ⟨ht, hm⟩, if_pos ⟨List.mem_cons_self _ _, hm⟩]
          · rw [if_neg (fun hc => ht hc.1), hstep,
                if_pos ⟨List.mem_cons_self _ _, hm⟩]
        · rw [if_neg (fun hc => hm hc.2), if_neg (fun hc => hm hc.2)]
          simp [applyMaskStep, hm]
      · have hne : (a.1 * image.width + a.2) * 4 + 3 ≠
            (y * image.width + x) * 4 + 3 := by
          intro h
          obtain ⟨h1, h2, _⟩ := pixel_index_injective
            (hl a (List.mem_cons_self a tl)) hx (by omega) (by omega) h
          exact ha (Prod.ext h1 h2)
        have hstep : applyMaskStep image mask d a
            ((y * image.width + x) * 4 + 3) =
            d ((y * image.width + x) * 4 + 3) := by
          by_cases hm : mask.data (maskIdx image mask a.2 a.1 + 3) = 0
          · have : (y * image.width + x) * 4 + 3 ≠
                (a.1 * image.width + a.2) * 4 + 3 := fun h => hne h.symm
            simp [applyMaskStep, hm, writeByte, this]
          · simp [applyMaskStep, hm]
        have hmem : ((y, x) ∈ a :: tl) ↔ ((y, x) ∈ tl) := by
          constructor
          · intro h
            rcases List.mem_cons.mp h with h | h
            · exact absurd h.symm ha
            · exact h
          · exact List.mem_cons_of_mem a
        by_cases ht : (y, x) ∈ tl ∧ mask.data (maskIdx image mask x y + 3) = 0
        · rw [if_pos ht, if_pos ⟨hmem.mpr ht.1, ht.2⟩]
        · rw [if_neg ht, if_neg (fun hc => ht ⟨hmem.mp hc.1, hc.2⟩), hstep]

/-- **C4.** For every destination pixel `(x, y)` of `applyMaskToImage`, the
mask pixel at `(floor(x*mask.width/image.width), floor(y*mask.height/image.height))`
is consulted: if its alpha byte is exactly `0` the destination pixel's alpha
is set to `0` with its RGB bytes left untouched, and if its alpha byte is
nonzero (e.g. 128) the destination pixel is left entirely unchanged — only
exact-zero alpha triggers removal, partial alpha never attenuates the
image. -/
theorem applyMask_binary_cutout (image mask : ImageDataM) (x y : Nat)
    (hx : x < image.width) (hy : y < image.height) :
    (mask.data (maskIdx image mask x y + 3) = 0 →
      (applyMaskCore image mask).data ((y * image.width + x) * 4 + 3) = 0 ∧
      ∀ c, c < 3 →
        (applyMaskCore image mask).data ((y * image.width + x) * 4 + c) =
          image.data ((y * image.width + x) * 4 + c)) ∧
    (mask.data (maskIdx image mask x y + 3) ≠ 0 →
      ∀ c, c ≤ 3 →
        (applyMaskCore image mask).data ((y * image.width + x) * 4 + c) =
          image.data ((y * image.width + x) * 4 + c)) := by
  have hdata : (applyMaskCore image mask).data =
      (coords image.height image.width).foldl (applyMaskStep image mask)
        image.data := rfl
  have hrange : ∀ p ∈ coords image.height image.width, p.2 < image.width :=
    fun p hp => (coords_range hp).2
  have hmem : (y, x) ∈ coords image.height image.width :=
    mem_coords.mpr ⟨hy, hx⟩
  constructor
  · intro hm
    constructor
    · rw [hdata, applyMask_foldl_alpha image mask x y hx _ hrange,
          if_pos ⟨hmem, hm⟩]
    · intro c hc
      rw [hdata]
      apply applyMask_foldl_preserve
      intro p hp h
      obtain ⟨_, _, h3⟩ := pixel_index_injective (hrange p hp) hx
        (by omega) (by omega) h
      omega
  · intro hm c hc
    rcases Nat.lt_or_ge c 3 with hc3 | hc3
    · rw [hdata]
      apply applyMask_foldl_preserve
      intro p hp h
      obtain ⟨_, _, h3⟩ := pixel_index_injective (hrange p hp) hx
        (by omega) (by omega) h
      omega
    · have hc3' : c = 3 := by omega
      subst hc3'
      rw [hdata, applyMask_foldl_alpha image mask x y hx _ hrange,
          if_neg (fun hco => hm hco.2)]

/-- Witness for **C4**: a 4×4 image whose bytes are all `100`, against a 2×2
mask whose pixel `(0, 0)` has alpha `0` and whose pixel `(1, 0)` has alpha
`128`.  Destination pixel `(0, 0)` maps to mask pixel `(0, 0)` and is cut
out (alpha zeroed, red byte untouched); destination pixel `(3, 0)` maps to
mask pixel `(1, 0)` and is left entirely unchanged. -/
theorem applyMask_binary_cutout_witness :
    (applyMaskCore ⟨4, 4, fun _ => 100⟩
        ⟨2, 2, fun i => if i = 3 then 0 else 128⟩).data 3 = 0 ∧
    (applyMaskCore ⟨4, 4, fun _ => 100⟩
        ⟨2, 2, fun i => if i = 3 then 0 else 128⟩).data 0 = 100 ∧
    (applyMaskCore ⟨4, 4, fun _ => 100⟩
        ⟨2, 2, fun i => if i = 3 then 0 else 128⟩).data ((0 * 4 + 3) * 4 + 3) =
      100 := by
  refine ⟨?_, ?_, ?_⟩
  · exact ((applyMask_binary_cutout ⟨4, 4, fun _ => 100⟩
      ⟨2, 2, fun i => if i = 3 then 0 else 128⟩ 0 0 (by decide) (by decide)).1
      (by decide)).1
  · exact ((applyMask_binary_cutout ⟨4, 4, fun _ => 100⟩
      ⟨2, 2, fun i => if i = 3 then 0 else 128⟩ 0 0 (by decide) (by decide)).1
      (by decide)).2 0 (by decide)
  · exact (applyMask_binary_cutout ⟨4, 4, fun _ => 100⟩
      ⟨2, 2, fun i => if i = 3 then 0 else 128⟩ 3 0 (by decide) (by decide)).2
      (by decide) 3 (by decide)

/-! ### C5: `getMaskBounds` computes the tight bounding box -/

/-- The content test of `getMaskBounds`: the pixel's alpha byte is
nonzero. -/
def contentPix (m : ImageDataM) (yx : Nat × Nat) : Prop :=
  0 < m.data ((yx.1 * m.width + yx.2) * 4 + 3)

instance (m : ImageDataM) : DecidablePred (contentPix m) := fun yx => by
  unfold contentPix; infer_instance

/-- Characterisation of a guarded running-minimum fold over the integers:
the result is a lower bound of the start value and of all selected values,
and is attained by the start value or by some selected value. -/
theorem foldl_intMin_char (P : Nat × Nat → Prop) [DecidablePred P]
    (g : Nat × Nat → Int) (l : List (Nat × Nat)) (a : Int) :
    (∀ q ∈ l, P q →
      l.foldl (fun b p => if P p then min b (g p) else b) a ≤ g q) ∧
    l.foldl (fun b p => if P p then min b (g p) else b) a ≤ a ∧
    (l.foldl (fun b p => if P p then min b (g p) else b) a = a ∨
      ∃ p ∈ l, P p ∧
        l.foldl (fun b p => if P p then min b (g p) else b) a = g p) := by
  induction l generalizing a with
  | nil => exact ⟨fun q hq => absurd hq (List.not_mem_nil q), le_refl a, .inl rfl⟩
  | cons a' tl ih =>
      rw [List.foldl_cons]
      by_cases hP : P a'
      · rw [if_pos hP]
        obtain ⟨ihq, ihle, ihreal⟩ := ih (min a (g a'))
        refine ⟨?_, le_trans ihle (min_le_left _ _), ?_⟩
        · intro q hq hPq
          rcases List.mem_cons.mp hq with hq | hq
          · subst hq; exact le_trans ihle (min_le_right _ _)
          · exact ihq q hq hPq
        · rcases ihreal with hstart | ⟨p, hp, hPp, hval⟩
          · rcases le_total a (g a') with hle | hle
            · exact .inl (by rw [hstart, min_eq_left hle])
            · exact .inr ⟨a', List.mem_cons_self a' tl, hP,
                by rw [hstart, min_eq_right hle]⟩
          · exact .inr ⟨p, List.mem_cons_of_mem a' hp, hPp, hval⟩
      · rw [if_neg hP]
        obtain ⟨ihq, ihle, ihreal⟩ := ih a
        refine ⟨?_, ihle, ?_⟩
        · intro q hq hPq
          rcases List.mem_cons.mp hq with hq | hq
          · subst hq; exact absurd hPq hP
          · exact ihq q hq hPq
        · rcases ihreal with hstart | ⟨p, hp, hPp, hval⟩
          · exact .inl hstart
          · exact .inr ⟨p, List.mem_cons_of_mem a' hp, hPp, hval⟩

/-- Characterisation of a guarded running-maximum fold over the integers. -/
theorem foldl_intMax_char (P : Nat × Nat → Prop) [DecidablePred P]
    (g : Nat × Nat → Int) (l : List (Nat × Nat)) (a : Int) :
    (∀ q ∈ l, P q →
      g q ≤ l.foldl (fun b p => if P p then max b (g p) else b) a) ∧
    a ≤ l.foldl (fun b p => if P p then max b (g p) else b) a ∧
    (l.foldl (fun b p => if P p then max b (g p) else b) a = a ∨
      ∃ p ∈ l, P p ∧
        l.foldl (fun b p => if P p then max b (g p) else b) a = g p) := by
  induction l generalizing a with
  | nil => exact ⟨fun q hq => absurd hq (List.not_mem_nil q), le_refl a, .inl rfl⟩
  | cons a' tl ih =>
      rw [List.foldl_cons]
      by_cases hP : P a'
      · rw [if_pos hP]
        obtain ⟨ihq, ihle, ihreal⟩ := ih (max a (g a'))
        refine ⟨?_, le_trans (le_max_left _ _) ihle, ?_⟩
        · intro q hq hPq
          rcases List.mem_cons.mp hq with hq | hq
          · subst hq; exact le_trans (le_max_right _ _) ihle
          · exact ihq q hq hPq
        · rcases ihreal with hstart | ⟨p, hp, hPp, hval⟩
          · rcases le_total a (g a') with hle | hle
            · exact .inr ⟨a', List.mem_cons_self a' tl, hP,
                by rw [hstart, max_eq_right hle]⟩
            · exact .inl (by rw [hstart, max_eq_left hle])
          · exact .inr ⟨p, List.mem_cons_of_mem a' hp, hPp, hval⟩
      · rw [if_neg hP]
        obtain ⟨ihq, ihle, ihreal⟩ := ih a
        refine ⟨?_, ihle, ?_⟩
        · intro q hq hPq
          rcases List.mem_cons.mp hq with hq | hq
          · subst hq; exact absurd hPq hP
          · exact ihq q hq hPq
        · rcases ihreal with hstart | ⟨p, hp, hPp, hval⟩
          · exact .inl hstart
          · exact .inr ⟨p, List.mem_cons_of_mem a' hp, hPp, hval⟩

/-- The scan of `getMaskBounds` decomposes into four independent guarded
min/max folds, one per component. -/
theorem mb_foldl_decomp (m : ImageDataM) (l : List (Nat × Nat)) (s : MBState) :
    (l.foldl (mbStep m) s).minX =
      l.foldl (fun b p => if contentPix m p then min b (p.2 : Int) else b)
        s.minX ∧
    (l.foldl (mbStep m) s).minY =
      l.foldl (fun b p => if contentPix m p then min b (p.1 : Int) else b)
        s.minY ∧
    (l.foldl (mbStep m) s).maxX =
      l.foldl (fun b p => if contentPix m p then max b (p.2 : Int) else b)
        s.maxX ∧
    (l.foldl (mbStep m) s).maxY =
      l.foldl (fun b p => if contentPix m p then max b (p.1 : Int) else b)
        s.maxY := by
  induction l generalizing s with
  | nil => exact ⟨rfl, rfl, rfl, rfl⟩
  | cons a tl ih =>
      simp only [List.foldl_cons]
      have hstep : mbStep m s a =
          { minX := if contentPix m a then min s.minX (a.2 : Int) else s.minX
            minY := if contentPix m a then min s.minY (a.1 : Int) else s.minY
            maxX := if contentPix m a then max s.maxX (a.2 : Int) else s.maxX
            maxY := if contentPix m a then max s.maxY (a.1 : Int) else s.maxY } := by
        by_cases h : contentPix m a
        · unfold mbStep
          rw [if_pos (by exact h)]
          simp [h]
        · unfold mbStep
          rw [if_neg (by exact h)]
          simp [h]
      rw [hstep]
      exact ih _

/-- The scan of `getMaskBounds` is the identity on masks without content. -/
theorem mb_foldl_nocontent (m : ImageDataM) (l : List (Nat × Nat))
    (s : MBState) (h : ∀ p ∈ l, ¬ contentPix m p) :
    l.foldl (mbStep m) s = s := by
  induction l generalizing s with
  | nil => rfl
  | cons a tl ih =>
      rw [List.foldl_cons]
      have hstep : mbStep m s a = s := by
        unfold mbStep
        rw [if_neg]
        exact fun hc => h a (List.mem_cons_self a tl) hc
      rw [hstep]
      exact ih s (fun p hp => h p (List.mem_cons_of_mem a hp))

/-- **C5.** `getMaskBounds` returns the inclusive tight bounding box of all
pixels whose alpha byte is nonzero: `left`/`top` are lower bounds and
`right`/`bottom` upper bounds of the content coordinates, each of the four
edges is attained by some content pixel, `width = right - left + 1` and
`height = bottom - top + 1`; and it returns `null` exactly when no pixel has
nonzero alpha. -/
theorem getMaskBounds_spec (m : ImageDataM) :
    (getMaskBounds m = none ↔
      ∀ y x, y < m.height → x < m.width →
        m.data ((y * m.width + x) * 4 + 3) = 0) ∧
    ∀ b, getMaskBounds m = some b →
      (∀ y x, y < m.height → x < m.width →
        m.data ((y * m.width + x) * 4 + 3) ≠ 0 →
        b.left ≤ (x : Int) ∧ (x : Int) ≤ b.right ∧
        b.top ≤ (y : Int) ∧ (y : Int) ≤ b.bottom) ∧
      (∃ y x, y < m.height ∧ x < m.width ∧
        m.data ((y * m.width + x) * 4 + 3) ≠ 0 ∧ (x : Int) = b.left) ∧
      (∃ y x, y < m.height ∧ x < m.width ∧
        m.data ((y * m.width + x) * 4 + 3) ≠ 0 ∧ (y : Int) = b.top) ∧
      (∃ y x, y < m.height ∧ x < m.width ∧
        m.data ((y * m.width + x) * 4 + 3) ≠ 0 ∧ (x : Int) = b.right) ∧
      (∃ y x, y < m.height ∧ x < m.width ∧
        m.data ((y * m.width + x) * 4 + 3) ≠ 0 ∧ (y : Int) = b.bottom) ∧
      b.width = b.right - b.left + 1 ∧
      b.height = b.bottom - b.top + 1 := by
  have hscan : mbScan m = (coords m.height m.width).foldl (mbStep m)
      ⟨(m.width : Int), (m.height : Int), -1, -1⟩ := rfl
  obtain ⟨dminX, dminY, dmaxX, dmaxY⟩ := mb_foldl_decomp m
    (coords m.height m.width) ⟨(m.width : Int), (m.height : Int), -1, -1⟩
  rw [← hscan] at dminX dminY dmaxX dmaxY
  obtain ⟨minXub, minXstart, minXreal⟩ := foldl_intMin_char (contentPix m)
    (fun p => (p.2 : Int)) (coords m.height m.width) (m.width : Int)
  obtain ⟨minYub, minYstart, minYreal⟩ := foldl_intMin_char (contentPix m)
    (fun p => (p.1 : Int)) (coords m.height m.width) (m.height : Int)
  obtain ⟨maxXub, _, maxXreal⟩ := foldl_intMax_char (contentPix m)
    (fun p => (p.2 : Int)) (coords m.height m.width) (-1 : Int)
  obtain ⟨maxYub, _, maxYreal⟩ := foldl_intMax_char (contentPix m)
    (fun p => (p.1 : Int)) (coords m.height m.width) (-1 : Int)
  rw [← dminX] at minXub minXstart minXreal
  rw [← dminY] at minYub minYstart minYreal
  rw [← dmaxX] at maxXub maxXreal
  rw [← dmaxY] at maxYub maxYreal
  have hcontent_iff : ∀ y x, contentPix m (y, x) ↔
      m.data ((y * m.width + x) * 4 + 3) ≠ 0 := by
    intro y x
    exact Nat.pos_iff_ne_zero
  have hmaxX_neg_iff : (mbScan m).maxX = -1 ↔
      ∀ p ∈ coords m.height m.width, ¬ contentPix m p := by
    constructor
    · intro hneg p hp hc
      have := maxXub p hp hc
      rw [hneg] at this
      have : (0 : Int) ≤ (p.2 : Int) := Int.natCast_nonneg _
      omega
    · intro hnone
      rw [hscan, mb_foldl_nocontent m _ _ hnone]
  have hgm : getMaskBounds m =
      (if (mbScan m).maxX = -1 then none
       else some ⟨(mbScan m).minX, (mbScan m).minY, (mbScan m).maxX,
                  (mbScan m).maxY, (mbScan m).maxX - (mbScan m).minX + 1,
                  (mbScan m).maxY - (mbScan m).minY + 1⟩) := rfl
  constructor
  · -- the `none` characterisation
    rw [hgm]
    constructor
    · intro hnone y x hy hx
      by_cases hneg : (mbScan m).maxX = -1
      · by_contra hnz
        exact (hmaxX_neg_iff.mp hneg) (y, x) (mem_coords.mpr ⟨hy, hx⟩)
          ((hcontent_iff y x).mpr hnz)
      · rw [if_neg hneg] at hnone
        cases hnone
    · intro hall
      rw [if_pos]
      apply hmaxX_neg_iff.mpr
      intro p hp hc
      obtain ⟨hy, hx⟩ := coords_range hp
      exact ((hcontent_iff p.1 p.2).mp hc) (hall p.1 p.2 hy hx)
  · -- the `some` characterisation
    intro b hb
    rw [hgm] at hb
    by_cases hneg : (mbScan m).maxX = -1
    · rw [if_pos hneg] at hb; cases hb
    · rw [if_neg hneg] at hb
      have hbeq := (Option.some.injEq _ _).mp hb
      -- a content pixel exists
      have hex : ∃ p ∈ coords m.height m.width, contentPix m p := by
        rcases maxXreal with h | ⟨p, hp, hPp, _⟩
        · exact absurd h hneg
        · exact ⟨p, hp, hPp⟩
      obtain ⟨p0, hp0, hc0⟩ := hex
      refine ⟨?_, ?_, ?_, ?_, ?_, ?_, ?_⟩
      · -- every content pixel is inside the box
        intro y x hy hx hnz
        have hc := (hcontent_iff y x).mpr hnz
        have hmemc : (y, x) ∈ coords m.height m.width :=
          mem_coords.mpr ⟨hy, hx⟩
        rw [← hbeq]
        exact ⟨minXub (y, x) hmemc hc, maxXub (y, x) hmemc hc,
               minYub (y, x) hmemc hc, maxYub (y, x) hmemc hc⟩
      · -- `left` attained
        rcases minXreal with hstart | ⟨p, hp, hPp, hval⟩
        · exfalso
          have hlt : (p0.2 : Int) < (m.width : Int) := by
            exact_mod_cast (coords_range hp0).2
          have := minXub p0 hp0 hc0
          rw [hstart] at this
          omega
        · obtain ⟨hy, hx⟩ := coords_range hp
          exact ⟨p.1, p.2, hy, hx, (hcontent_iff p.1 p.2).mp hPp,
                 by rw [← hbeq, ← hval]⟩
      · -- `top` attained
        rcases minYreal with hstart | ⟨p, hp, hPp, hval⟩
        · exfalso
          have hlt : (p0.1 : Int) < (m.height : Int) := by
            exact_mod_cast (coords_range hp0).1
          have := minYub p0 hp0 hc0
          rw [hstart] at this
          omega
        · obtain ⟨hy, hx⟩ := coords_range hp
          exact ⟨p.1, p.2, hy, hx, (hcontent_iff p.1 p.2).mp hPp,
                 by rw [← hbeq, ← hval]⟩
      · -- `right` attained
        rcases maxXreal with hstart | ⟨p, hp, hPp, hval⟩
        · exact absurd hstart hneg
        · obtain ⟨hy, hx⟩ := coords_range hp
          exact ⟨p.1, p.2, hy, hx, (hcontent_iff p.1 p.2).mp hPp,
                 by rw [← hbeq, ← hval]⟩
      · -- `bottom` attained
        rcases maxYreal with hstart | ⟨p, hp, hPp, hval⟩
        · exfalso
          have hge : (0 : Int) ≤ (p0.1 : Int) := Int.natCast_nonneg _
          have := maxYub p0 hp0 hc0
          rw [hstart] at this
          omega
        · obtain ⟨hy, hx⟩ := coords_range hp
          exact ⟨p.1, p.2, hy, hx, (hcontent_iff p.1 p.2).mp hPp,
                 by rw [← hbeq, ← hval]⟩
      · rw [← hbeq]
      · rw [← hbeq]

/-- Witness for **C5**: the all-transparent 10×10 mask yields `null`; a
10×10 mask whose only nonzero-alpha pixel is `(5, 5)` yields the tight box
`{left 5, top 5, right 5, bottom 5, width 1, height 1}`, and the theorem's
bound applies to the content pixel `(5, 5)`. -/
theorem getMaskBounds_spec_witness :
    getMaskBounds ⟨10, 10, fun _ => 0⟩ = none ∧
    ((5 : Int) ≤ 5 ∧ (5 : Int) ≤ 5 ∧ (5 : Int) ≤ 5 ∧ (5 : Int) ≤ 5) ∧
    (⟨5, 5, 5, 5, 1, 1⟩ : MaskBounds).width =
      (⟨5, 5, 5, 5, 1, 1⟩ : MaskBounds).right -
        (⟨5, 5, 5, 5, 1, 1⟩ : MaskBounds).left + 1 :=
  ⟨(getMaskBounds_spec ⟨10, 10, fun _ => 0⟩).1.mpr (fun _ _ _ _ => rfl),
   ((getMaskBounds_spec
      ⟨10, 10, fun i => if i = (5 * 10 + 5) * 4 + 3 then 255 else 0⟩).2
      ⟨5, 5, 5, 5, 1, 1⟩ (by decide)).1 5 5 (by decide) (by decide)
      (by decide),
   (((getMaskBounds_spec
      ⟨10, 10, fun i => if i = (5 * 10 + 5) * 4 + 3 then 255 else 0⟩).2
      ⟨5, 5, 5, 5, 1, 1⟩ (by decide)).2.2.2.2.2).1⟩

/-! ### C3: `trimCanvasToContent` with padding on a known content box -/

/-- The `top` component of one `trimCanvasToContent` bounds-loop iteration:
set on the first content pixel, then kept. -/
def optFirstStep (P : Nat → Prop) [DecidablePred P] (g : Nat → Nat)
    (a : Option Nat) (p : Nat) : Option Nat :=
  if P p then
    (match a with
     | none => some (g p)
     | some t => some t)
  else a

/-- The `left` component of one bounds-loop iteration: a running minimum
over `Option`. -/
def optMinStep (P : Nat → Prop) [DecidablePred P] (g : Nat → Nat)
    (a : Option Nat) (p : Nat) : Option Nat :=
  if P p then
    (match a with
     | none => some (g p)
     | some l0 => if g p < l0 then some (g p) else some l0)
  else a

/-- The `right`/`bottom` component of one bounds-loop iteration: a running
maximum over `Option`. -/
def optMaxStep (P : Nat → Prop) [DecidablePred P] (g : Nat → Nat)
    (a : Option Nat) (p : Nat) : Option Nat :=
  if P p then
    (match a with
     | none => some (g p)
     | some r0 => if r0 < g p then some (g p) else some r0)
  else a

/-- The bounds loop of `trimCanvasToContent` decomposes into four
independent component folds. -/
theorem trim_foldl_decomp (c : ImageDataM) (l : List Nat) (b : BoundState) :
    (l.foldl (trimStep c) b).top =
      l.foldl (optFirstStep (fun p => c.data (4 * p + 3) ≠ 0)
        (fun p => p / c.width)) b.top ∧
    (l.foldl (trimStep c) b).left =
      l.foldl (optMinStep (fun p => c.data (4 * p + 3) ≠ 0)
        (fun p => p % c.width)) b.left ∧
    (l.foldl (trimStep c) b).right =
      l.foldl (optMaxStep (fun p => c.data (4 * p + 3) ≠ 0)
        (fun p => p % c.width)) b.right ∧
    (l.foldl (trimStep c) b).bottom =
      l.foldl (optMaxStep (fun p => c.data (4 * p + 3) ≠ 0)
        (fun p => p / c.width)) b.bottom := by
  induction l generalizing b with
  | nil => exact ⟨rfl, rfl, rfl, rfl⟩
  | cons a tl ih =>
      simp only [List.foldl_cons]
      have hstep : trimStep c b a =
          { top := optFirstStep (fun p => c.data (4 * p + 3) ≠ 0)
              (fun p => p / c.width) b.top a
            left := optMinStep (fun p => c.data (4 * p + 3) ≠ 0)
              (fun p => p % c.width) b.left a
            right := optMaxStep (fun p => c.data (4 * p + 3) ≠ 0)
              (fun p => p % c.width) b.right a
            bottom := optMaxStep (fun p => c.data (4 * p + 3) ≠ 0)
              (fun p => p / c.width) b.bottom a } := by
        by_cases h : c.data (4 * a + 3) ≠ 0
        · unfold trimStep optFirstStep optMinStep optMaxStep
          rw [if_pos h, if_pos h, if_pos h, if_pos h, if_pos h]
        · unfold trimStep optFirstStep optMinStep optMaxStep
          rw [if_neg h, if_neg h, if_neg h, if_neg h, if_neg h]
      rw [hstep]
      exact ih _

/-- A guarded `Option` running minimum: `none` exactly when nothing was
selected and the start was `none`; a `some` result is a lower bound of the
start and all selected values and is attained. -/
theorem optMin_foldl_char (P : Nat → Prop) [DecidablePred P] (g : Nat → Nat)
    (l : List Nat) (a : Option Nat) :
    (l.foldl (optMinStep P g) a = none ↔ a = none ∧ ∀ p ∈ l, ¬ P p) ∧
    ∀ v, l.foldl (optMinStep P g) a = some v →
      (∀ q ∈ l, P q → v ≤ g q) ∧
      (∀ a0, a = some a0 → v ≤ a0) ∧
      (a = some v ∨ ∃ p ∈ l, P p ∧ v = g p) := by
  induction l generalizing a with
  | nil =>
      refine ⟨by simp, fun v hv => ⟨by simp, ?_, .inl hv⟩⟩
      intro a0 ha0
      rw [ha0] at hv
      exact le_of_eq (Option.some.inj hv).symm
  | cons a' tl ih =>
      rw [List.foldl_cons]
      by_cases hP : P a'
      · have hsome : ∃ m, optMinStep P g a a' = some m ∧ m ≤ g a' ∧
            (∀ a0, a = some a0 → m ≤ a0) ∧
            (m = g a' ∨ ∃ a0, a = some a0 ∧ m = a0) := by
          cases a with
          | none => exact ⟨g a', by simp [optMinStep, hP], le_refl _,
              by simp, .inl rfl⟩
          | some a0 =>
              by_cases hlt : g a' < a0
              · exact ⟨g a', by simp [optMinStep, hP, hlt], le_refl _,
                  fun a1 h1 => by rw [Option.some.inj h1] at hlt; omega,
                  .inl rfl⟩
              · exact ⟨a0, by simp [optMinStep, hP, hlt], by omega,
                  fun a1 h1 => le_of_eq (Option.some.inj h1),
                  .inr ⟨a0, rfl, rfl⟩⟩
        obtain ⟨m, hm, hmg, hma, hmreal⟩ := hsome
        rw [hm]
        obtain ⟨ihnone, ihsome⟩ := ih (some m)
        constructor
        · rw [ihnone]
          constructor
          · rintro ⟨h, -⟩; cases h
          · rintro ⟨-, hall⟩
            exact absurd hP (hall a' (List.mem_cons_self a' tl))
        · intro v hv
          obtain ⟨ihq, ihstart, ihreal⟩ := ihsome v hv
          have hvm : v ≤ m := ihstart m rfl
          refine ⟨?_, ?_, ?_⟩
          · intro q hq hPq
            rcases List.mem_cons.mp hq with hq | hq
            · subst hq; exact le_trans hvm hmg
            · exact ihq q hq hPq
          · intro a0 ha0
            exact le_trans hvm (hma a0 ha0)
          · rcases ihreal with hstart | ⟨p, hp, hPp, hval⟩
            · have hvm' : v = m := (Option.some.inj hstart).symm
              rcases hmreal with hmg' | ⟨a0, ha0, hma0⟩
              · exact .inr ⟨a', List.mem_cons_self a' tl, hP,
                  by rw [hvm', hmg']⟩
              · exact .inl (by rw [ha0, hvm', hma0])
            · exact .inr ⟨p, List.mem_cons_of_mem a' hp, hPp, hval⟩
      · have hid : optMinStep P g a a' = a := by
          unfold optMinStep; rw [if_neg hP]
        rw [hid]
        obtain ⟨ihnone, ihsome⟩ := ih a
        constructor
        · rw [ihnone]
          constructor
          · rintro ⟨ha, hall⟩
            refine ⟨ha, fun p hp => ?_⟩
            rcases List.mem_cons.mp hp with hp | hp
            · subst hp; exact hP
            · exact hall p hp
          · rintro ⟨ha, hall⟩
            exact ⟨ha, fun p hp => hall p (List.mem_cons_of_mem a' hp)⟩
        · intro v hv
          obtain ⟨ihq, ihstart, ihreal⟩ := ihsome v hv
          refine ⟨?_, ihstart, ?_⟩
          · intro q hq hPq
            rcases List.mem_cons.mp hq with hq | hq
            · subst hq; exact absurd hPq hP
            · exact ihq q hq hPq
          · rcases ihreal with hstart | ⟨p, hp, hPp, hval⟩
            · exact .inl hstart
            · exact .inr ⟨p, List.mem_cons_of_mem a' hp, hPp, hval⟩

/-- A guarded `Option` running maximum, dual to `optMin_foldl_char`. -/
theorem optMax_foldl_char (P : Nat → Prop) [DecidablePred P] (g : Nat → Nat)
    (l : List Nat) (a : Option Nat) :
    (l.foldl (optMaxStep P g) a = none ↔ a = none ∧ ∀ p ∈ l, ¬ P p) ∧
    ∀ v, l.foldl (optMaxStep P g) a = some v →
      (∀ q ∈ l, P q → g q ≤ v) ∧
      (∀ a0, a = some a0 → a0 ≤ v) ∧
      (a = some v ∨ ∃ p ∈ l, P p ∧ v = g p) := by
  induction l generalizing a with
  | nil =>
      refine ⟨by simp, fun v hv => ⟨by simp, ?_, .inl hv⟩⟩
      intro a0 ha0
      rw [ha0] at hv
      exact le_of_eq (Option.some.inj hv)
  | cons a' tl ih =>
      rw [List.foldl_cons]
      by_cases hP : P a'
      · have hsome : ∃ m, optMaxStep P g a a' = some m ∧ g a' ≤ m ∧
            (∀ a0, a = some a0 → a0 ≤ m) ∧
            (m = g a' ∨ ∃ a0, a = some a0 ∧ m = a0) := by
          cases a with
          | none => exact ⟨g a', by simp [optMaxStep, hP], le_refl _,
              by simp, .inl rfl⟩
          | some a0 =>
              by_cases hlt : a0 < g a'
              · exact ⟨g a', by simp [optMaxStep, hP, hlt], le_refl _,
                  fun a1 h1 => by rw [Option.some.inj h1] at hlt; omega,
                  .inl rfl⟩
              · exact ⟨a0, by simp [optMaxStep, hP, hlt], by omega,
                  fun a1 h1 => le_of_eq (Option.some.inj h1).symm,
                  .inr ⟨a0, rfl, rfl⟩⟩
        obtain ⟨m, hm, hmg, hma, hmreal⟩ := hsome
        rw [hm]
        obtain ⟨ihnone, ihsome⟩ := ih (some m)
        constructor
        · rw [ihnone]
          constructor
          · rintro ⟨h, -⟩; cases h
          · rintro ⟨-, hall⟩
            exact absurd hP (hall a' (List.mem_cons_self a' tl))
        · intro v hv
          obtain ⟨ihq, ihstart, ihreal⟩ := ihsome v hv
          have hvm : m ≤ v := ihstart m rfl
          refine ⟨?_, ?_, ?_⟩
          · intro q hq hPq
            rcases List.mem_cons.mp hq with hq | hq
            · subst hq; exact le_trans hmg hvm
            · exact ihq q hq hPq
          · intro a0 ha0
            exact le_trans (hma a0 ha0) hvm
          · rcases ihreal with hstart | ⟨p, hp, hPp, hval⟩
            · have hvm' : v = m := (Option.some.inj hstart).symm
              rcases hmreal with hmg' | ⟨a0, ha0, hma0⟩
              · exact .inr ⟨a', List.mem_cons_self a' tl, hP,
                  by rw [hvm', hmg']⟩
              · exact .inl (by rw [ha0, hvm', hma0])
            · exact .inr ⟨p, List.mem_cons_of_mem a' hp, hPp, hval⟩
      · have hid : optMaxStep P g a a' = a := by
          unfold optMaxStep; rw [if_neg hP]
        rw [hid]
        obtain ⟨ihnone, ihsome⟩ := ih a
        constructor
        · rw [ihnone]
          constructor
          · rintro ⟨ha, hall⟩
            refine ⟨ha, fun p hp => ?_⟩
            rcases List.mem_cons.mp hp with hp | hp
            · subst hp; exact hP
            · exact hall p hp
          · rintro ⟨ha, hall⟩
            exact ⟨ha, fun p hp => hall p (List.mem_cons_of_mem a' hp)⟩
        · intro v hv
          obtain ⟨ihq, ihstart, ihreal⟩ := ihsome v hv
          refine ⟨?_, ihstart, ?_⟩
          · intro q hq hPq
            rcases List.mem_cons.mp hq with hq | hq
            · subst hq; exact absurd hPq hP
            · exact ihq q hq hPq
          · rcases ihreal with hstart | ⟨p, hp, hPp, hval⟩
            · exact .inl hstart
            · exact .inr ⟨p, List.mem_cons_of_mem a' hp, hPp, hval⟩

/-- A first-hit fold started at `some t` never changes. -/
theorem optFirst_foldl_some (P : Nat → Prop) [DecidablePred P]
    (g : Nat → Nat) (l : List Nat) (t : Nat) :
    l.foldl (optFirstStep P g) (some t) = some t := by
  induction l with
  | nil => rfl
  | cons a tl ih =>
      rw [List.foldl_cons]
      have : optFirstStep P g (some t) a = some t := by
        unfold optFirstStep
        by_cases h : P a
        · rw [if_pos h]
        · rw [if_neg h]
      rw [this, ih]

/-- A first-hit fold over a sorted list: the result is `none` iff nothing is
selected, and otherwise it is the `g`-value of the *earliest* selected
element. -/
theorem optFirst_foldl_char (P : Nat → Prop) [DecidablePred P]
    (g : Nat → Nat) (l : List Nat) (hord : l.Pairwise (· ≤ ·)) :
    (l.foldl (optFirstStep P g) none = none ↔ ∀ p ∈ l, ¬ P p) ∧
    ∀ t, l.foldl (optFirstStep P g) none = some t →
      ∃ p ∈ l, P p ∧ t = g p ∧ ∀ q ∈ l, P q → p ≤ q := by
  induction l with
  | nil => exact ⟨by simp, fun t ht => by cases ht⟩
  | cons a tl ih =>
      have ha : ∀ q ∈ tl, a ≤ q := (List.pairwise_cons.mp hord).1
      have hord' : tl.Pairwise (· ≤ ·) := (List.pairwise_cons.mp hord).2
      obtain ⟨ihnone, ihsome⟩ := ih hord'
      rw [List.foldl_cons]
      by_cases hP : P a
      · have hstep : optFirstStep P g none a = some (g a) := by
          unfold optFirstStep; rw [if_pos hP]
        rw [hstep, optFirst_foldl_some]
        constructor
        · constructor
          · intro h; cases h
          · intro hall; exact absurd hP (hall a (List.mem_cons_self a tl))
        · intro t ht
          refine ⟨a, List.mem_cons_self a tl, hP, (Option.some.inj ht).symm,
            fun q hq _ => ?_⟩
          rcases List.mem_cons.mp hq with hq | hq
          · exact le_of_eq hq.symm
          · exact ha q hq
      · have hstep : optFirstStep P g none a = none := by
          unfold optFirstStep; rw [if_neg hP]
        rw [hstep]
        constructor
        · rw [ihnone]
          constructor
          · intro hall p hp
            rcases List.mem_cons.mp hp with hp | hp
            · subst hp; exact hP
            · exact hall p hp
          · intro hall p hp
            exact hall p (List.mem_cons_of_mem a hp)
        · intro t ht
          obtain ⟨p, hp, hPp, htg, hmin⟩ := ihsome t ht
          refine ⟨p, List.mem_cons_of_mem a hp, hPp, htg, fun q hq hPq => ?_⟩
          rcases List.mem_cons.mp hq with hq | hq
          · subst hq; exact absurd hPq hP
          · exact hmin q hq hPq

/-- If every content pixel of `c` lies in the box
`[lft, rgt] × [top, bot]` (in `x = p % width`, `y = p / width` coordinates)
and each of the four edges is attained, then the bounds scan of
`trimCanvasToContent` computes exactly that box. -/
theorem findBounds_of_box (c : ImageDataM) (lft top rgt bot : Nat)
    (hcontain : ∀ p, p < c.width * c.height → c.data (4 * p + 3) ≠ 0 →
      lft ≤ p % c.width ∧ p % c.width ≤ rgt ∧
      top ≤ p / c.width ∧ p / c.width ≤ bot)
    (hlft : ∃ p, p < c.width * c.height ∧ c.data (4 * p + 3) ≠ 0 ∧
      p % c.width = lft)
    (hrgt : ∃ p, p < c.width * c.height ∧ c.data (4 * p + 3) ≠ 0 ∧
      p % c.width = rgt)
    (htop : ∃ p, p < c.width * c.height ∧ c.data (4 * p + 3) ≠ 0 ∧
      p / c.width = top)
    (hbot : ∃ p, p < c.width * c.height ∧ c.data (4 * p + 3) ≠ 0 ∧
      p / c.width = bot) :
    findBounds c = ⟨some top, some lft, some rgt, some bot⟩ := by
  have hfb : findBounds c = (List.range (c.width * c.height)).foldl
      (trimStep c) ⟨none, none, none, none⟩ := rfl
  obtain ⟨dtop, dleft, dright, dbottom⟩ := trim_foldl_decomp c
    (List.range (c.width * c.height)) ⟨none, none, none, none⟩
  rw [← hfb] at dtop dleft dright dbottom
  -- the `left` component
  have hleft : (findBounds c).left = some lft := by
    obtain ⟨p0, hp0, hnz0, he0⟩ := hlft
    rw [dleft]
    obtain ⟨hnone, hsome⟩ := optMin_foldl_char
      (fun p => c.data (4 * p + 3) ≠ 0) (fun p => p % c.width)
      (List.range (c.width * c.height)) none
    cases hv : (List.range (c.width * c.height)).foldl
        (optMinStep (fun p => c.data (4 * p + 3) ≠ 0)
          (fun p => p % c.width)) none with
    | none =>
        exact absurd hnz0 ((hnone.mp hv).2 p0 (List.mem_range.mpr hp0))
    | some v =>
        obtain ⟨hub, -, hreal⟩ := hsome v hv
        have h1 : v ≤ lft := he0 ▸ hub p0 (List.mem_range.mpr hp0) hnz0
        have h2 : lft ≤ v := by
          rcases hreal with h | ⟨p1, hp1, hnz1, hval⟩
          · cases h
          · rw [hval]
            exact (hcontain p1 (List.mem_range.mp hp1) hnz1).1
        rw [Nat.le_antisymm h1 h2]
  -- the `right` component
  have hright : (findBounds c).right = some rgt := by
    obtain ⟨p0, hp0, hnz0, he0⟩ := hrgt
    rw [dright]
    obtain ⟨hnone, hsome⟩ := optMax_foldl_char
      (fun p => c.data (4 * p + 3) ≠ 0) (fun p => p % c.width)
      (List.range (c.width * c.height)) none
    cases hv : (List.range (c.width * c.height)).foldl
        (optMaxStep (fun p => c.data (4 * p + 3) ≠ 0)
          (fun p => p % c.width)) none with
    | none =>
        exact absurd hnz0 ((hnone.mp hv).2 p0 (List.mem_range.mpr hp0))
    | some v =>
        obtain ⟨hub, -, hreal⟩ := hsome v hv
        have h1 : rgt ≤ v := he0 ▸ hub p0 (List.mem_range.mpr hp0) hnz0
        have h2 : v ≤ rgt := by
          rcases hreal with h | ⟨p1, hp1, hnz1, hval⟩
          · cases h
          · rw [hval]
            exact (hcontain p1 (List.mem_range.mp hp1) hnz1).2.1
        rw [Nat.le_antisymm h2 h1]
  -- the `bottom` component
  have hbottom : (findBounds c).bottom = some bot := by
    obtain ⟨p0, hp0, hnz0, he0⟩ := hbot
    rw [dbottom]
    obtain ⟨hnone, hsome⟩ := optMax_foldl_char
      (fun p => c.data (4 * p + 3) ≠ 0) (fun p => p / c.width)
      (List.range (c.width * c.height)) none
    cases hv : (List.range (c.width * c.height)).foldl
        (optMaxStep (fun p => c.data (4 * p + 3) ≠ 0)
          (fun p => p / c.width)) none with
    | none =>
        exact absurd hnz0 ((hnone.mp hv).2 p0 (List.mem_range.mpr hp0))
    | some v =>
        obtain ⟨hub, -, hreal⟩ := hsome v hv
        have h1 : bot ≤ v := he0 ▸ hub p0 (List.mem_range.mpr hp0) hnz0
        have h2 : v ≤ bot := by
          rcases hreal with h | ⟨p1, hp1, hnz1, hval⟩
          · cases h
          · rw [hval]
            exact (hcontain p1 (List.mem_range.mp hp1) hnz1).2.2.2
        rw [Nat.le_antisymm h2 h1]
  -- the `top` component (set-once: the first content pixel's row, which is
  -- minimal because the scan is row-major)
  have htop' : (findBounds c).top = some top := by
    obtain ⟨q0, hq0, hnzq, heq⟩ := htop
    rw [dtop]
    obtain ⟨hnone, hsome⟩ := optFirst_foldl_char
      (fun p => c.data (4 * p + 3) ≠ 0) (fun p => p / c.width)
      (List.range (c.width * c.height))
      (List.pairwise_le_range _)
    cases hv : (List.range (c.width * c.height)).foldl
        (optFirstStep (fun p => c.data (4 * p + 3) ≠ 0)
          (fun p => p / c.width)) none with
    | none =>
        exact absurd hnzq (hnone.mp hv q0 (List.mem_range.mpr hq0))
    | some t =>
        obtain ⟨p1, hp1, hnz1, hval, hfirst⟩ := hsome t hv
        have h1 : top ≤ t :=
          hval ▸ (hcontain p1 (List.mem_range.mp hp1) hnz1).2.2.1
        have h2 : t ≤ top := by
          have hle : p1 ≤ q0 := hfirst q0 (List.mem_range.mpr hq0) hnzq
          rw [hval, ← heq]
          exact Nat.div_le_div_right hle
        rw [Nat.le_antisymm h2 h1]
  have heta : findBounds c = ⟨(findBounds c).top, (findBounds c).left,
      (findBounds c).right, (findBounds c).bottom⟩ := rfl
  rw [heta, htop', hleft, hright, hbottom]

/-- Core computation for the padded-trim scenario: on a 100×100 raster
whose content pixels all lie in `[10, 20] × [10, 20]` with all four edges
attained, `trimCanvasToContent` with `padding = 2` produces the 15×15
sub-raster anchored at `(8, 8)` (bounds 8..22; the clamps
`min (width-1) (right+padding)` do not bind since 22 ≤ 99). -/
theorem trim_pad2_core (c : ImageDataM)
    (hw : c.width = 100) (hh : c.height = 100)
    (hcontain : ∀ x, x < 100 → ∀ y, y < 100 →
      c.data ((y * 100 + x) * 4 + 3) ≠ 0 →
      10 ≤ x ∧ x ≤ 20 ∧ 10 ≤ y ∧ y ≤ 20)
    (hL : ∃ x, x < 100 ∧ ∃ y, y < 100 ∧
      c.data ((y * 100 + x) * 4 + 3) ≠ 0 ∧ x = 10)
    (hR : ∃ x, x < 100 ∧ ∃ y, y < 100 ∧
      c.data ((y * 100 + x) * 4 + 3) ≠ 0 ∧ x = 20)
    (hT : ∃ x, x < 100 ∧ ∃ y, y < 100 ∧
      c.data ((y * 100 + x) * 4 + 3) ≠ 0 ∧ y = 10)
    (hB : ∃ x, x < 100 ∧ ∃ y, y < 100 ∧
      c.data ((y * 100 + x) * 4 + 3) ≠ 0 ∧ y = 20) :
    trimCanvasToContent c 2 =
      { width := 15, height := 15,
        data := fun i =>
          c.data (((8 + i / 4 / 15) * c.width + (8 + i / 4 % 15)) * 4 +
            i % 4) } := by
  have hwh : c.width * c.height = 10000 := by rw [hw, hh]
  have hcontain' : ∀ p, p < c.width * c.height →
      c.data (4 * p + 3) ≠ 0 →
      10 ≤ p % c.width ∧ p % c.width ≤ 20 ∧
      10 ≤ p / c.width ∧ p / c.width ≤ 20 := by
    intro p hp hnz
    rw [hwh] at hp
    rw [hw]
    have hidx : (p / 100 * 100 + p % 100) * 4 + 3 = 4 * p + 3 := by omega
    exact hcontain (p % 100) (by omega) (p / 100) (by omega)
      (by rw [hidx]; exact hnz)
  have hconv : ∀ x y : Nat, x < 100 → y < 100 →
      c.data ((y * 100 + x) * 4 + 3) ≠ 0 →
      y * 100 + x < c.width * c.height ∧
      c.data (4 * (y * 100 + x) + 3) ≠ 0 ∧
      (y * 100 + x) % c.width = x ∧ (y * 100 + x) / c.width = y := by
    intro x y hx hy hnz
    rw [hwh, hw]
    have hidx : 4 * (y * 100 + x) + 3 = (y * 100 + x) * 4 + 3 := by omega
    refine ⟨by omega, by rw [hidx]; exact hnz, by omega, by omega⟩
  have hfb : findBounds c = ⟨some 10, some 10, some 20, some 20⟩ := by
    apply findBounds_of_box c 10 10 20 20 hcontain'
    · obtain ⟨x, hx, y, hy, hnz, hex⟩ := hL
      obtain ⟨h1, h2, h3, _⟩ := hconv x y hx hy hnz
      exact ⟨y * 100 + x, h1, h2, by rw [h3, hex]⟩
    · obtain ⟨x, hx, y, hy, hnz, hex⟩ := hR
      obtain ⟨h1, h2, h3, _⟩ := hconv x y hx hy hnz
      exact ⟨y * 100 + x, h1, h2, by rw [h3, hex]⟩
    · obtain ⟨x, hx, y, hy, hnz, hey⟩ := hT
      obtain ⟨h1, h2, _, h4⟩ := hconv x y hx hy hnz
      exact ⟨y * 100 + x, h1, h2, by rw [h4, hey]⟩
    · obtain ⟨x, hx, y, hy, hnz, hey⟩ := hB
      obtain ⟨h1, h2, _, h4⟩ := hconv x y hx hy hnz
      exact ⟨y * 100 + x, h1, h2, by rw [h4, hey]⟩
  simp only [trimCanvasToContent, hfb, hw, hh]
  norm_num

/-- **C3 (amended).** `trimCanvasToContent` with `padding = 2` applied to a
100×100 raster whose content (nonzero-alpha) pixels have tight bounds
`{left 10, top 10, right 20, bottom 20}` returns a sub-raster of size
**15×15** (the 11-pixel-wide content box expanded by 2 pixels of padding on
*each* side) anchored at source coordinate `(8, 8)`, the padded box being
clamped to the raster edges whenever the expansion would exceed them (here
the clamps do not bind: 8..22 lies inside 0..99). -/
theorem trim_pad2_content_box (c : ImageDataM)
    (hw : c.width = 100) (hh : c.height = 100)
    (hcontain : ∀ x, x < 100 → ∀ y, y < 100 →
      c.data ((y * 100 + x) * 4 + 3) ≠ 0 →
      10 ≤ x ∧ x ≤ 20 ∧ 10 ≤ y ∧ y ≤ 20)
    (hL : ∃ x, x < 100 ∧ ∃ y, y < 100 ∧
      c.data ((y * 100 + x) * 4 + 3) ≠ 0 ∧ x = 10)
    (hR : ∃ x, x < 100 ∧ ∃ y, y < 100 ∧
      c.data ((y * 100 + x) * 4 + 3) ≠ 0 ∧ x = 20)
    (hT : ∃ x, x < 100 ∧ ∃ y, y < 100 ∧
      c.data ((y * 100 + x) * 4 + 3) ≠ 0 ∧ y = 10)
    (hB : ∃ x, x < 100 ∧ ∃ y, y < 100 ∧
      c.data ((y * 100 + x) * 4 + 3) ≠ 0 ∧ y = 20) :
    (trimCanvasToContent c 2).width = 15 ∧
    (trimCanvasToContent c 2).height = 15 ∧
    ∀ x y ch, x < 15 → y < 15 → ch < 4 →
      (trimCanvasToContent c 2).data ((y * 15 + x) * 4 + ch) =
        c.data (((8 + y) * 100 + (8 + x)) * 4 + ch) := by
  have hres := trim_pad2_core c hw hh hcontain hL hR hT hB
  refine ⟨by rw [hres], by rw [hres], fun x y ch hx hy hch => ?_⟩
  simp only [hres, hw]
  congr 1
  omega

/-- The concrete 100×100 canvas whose content pixels are exactly the square
`[10, 20] × [10, 20]` (alpha 255 there, 0 elsewhere; RGB bytes all 7). -/
def trimExample : ImageDataM :=
  ⟨100, 100, fun i =>
    if i % 4 = 3 then
      (if 10 ≤ i / 4 % 100 ∧ i / 4 % 100 ≤ 20 ∧
          10 ≤ i / 4 / 100 ∧ i / 4 / 100 ≤ 20 then 255 else 0)
    else 7⟩

set_option maxRecDepth 4000 in
/-- The content pixels of `trimExample` lie in `[10, 20] × [10, 20]`. -/
theorem trimExample_contain : ∀ x, x < 100 → ∀ y, y < 100 →
    trimExample.data ((y * 100 + x) * 4 + 3) ≠ 0 →
    10 ≤ x ∧ x ≤ 20 ∧ 10 ≤ y ∧ y ≤ 20 := by decide

set_option maxRecDepth 4000 in
/-- **C3 (counterexample).** On a 100×100 raster whose content pixels have
tight bounds `{left 10, top 10, right 20, bottom 20}` (the concrete canvas
`trimExample`), `trimCanvasToContent` with `padding = 2` returns a **15×15**
sub-raster (bounds 8..22 after padding both sides), not the 13×13
sub-raster the claim states. -/
theorem trim_pad2_counterexample :
    (trimCanvasToContent trimExample 2).width = 15 ∧
    (trimCanvasToContent trimExample 2).height = 15 ∧
    (trimCanvasToContent trimExample 2).width ≠ 13 := by
  have hres := trim_pad2_core trimExample rfl rfl trimExample_contain
    (by decide) (by decide) (by decide) (by decide)
  exact ⟨by rw [hres], by rw [hres], by rw [hres]; decide⟩

set_option maxRecDepth 4000 in
/-- Witness for **C3 (amended)**: the concrete square-content canvas is
trimmed to 15×15, and its pixel `(2, 2)` is the source pixel `(10, 10)`. -/
theorem trim_pad2_content_box_witness :
    (trimCanvasToContent trimExample 2).width = 15 ∧
    (trimCanvasToContent trimExample 2).data ((2 * 15 + 2) * 4 + 3) =
      trimExample.data (((8 + 2) * 100 + (8 + 2)) * 4 + 3) :=
  ⟨(trim_pad2_content_box trimExample rfl rfl trimExample_contain
      (by decide) (by decide) (by decide) (by decide)).1,
   (trim_pad2_content_box trimExample rfl rfl trimExample_contain
      (by decide) (by decide) (by decide) (by decide)).2.2 2 2 3
      (by decide) (by decide) (by decide)⟩

end MaskUtils
